import Mathlib

/-!
Shallow embedding of the Highcharts `networkgraph` series module
(`src/js/modules/networkgraph/networkgraph.src.js`) and proofs about its
node/link bookkeeping, layout-instance sharing, drag interaction and the
stop/run ordering of the simulation lifecycle.

Numbers (plot coordinates, chart coordinates, masses) are modelled as
rationals; the JS arithmetic involved (addition, subtraction, division,
absolute value, comparisons) is exact on the inputs considered.  Purely
visual concerns (colors, halos, data labels, SVG paths) are out of the
scope of the spec and of every claim, and are not modelled.
-/

namespace Networkgraph

/-! ## Point-class helpers: `getMass` and `getDegree` -/

/-- Result object of `Point.getMass`: the share of the attractive force
assigned to each endpoint of a link. -/
structure MassSplit where
  fromNode : ℚ
  toNode : ℚ
deriving DecidableEq, Repr

/-- `getMass` from the point class, applied to the masses of the link's two
endpoint nodes (`this.fromNode.mass` and `this.toNode.mass`):
`{ fromNode: 1 - m1 / sum, toNode: 1 - m2 / sum }` with `sum = m1 + m2`. -/
def getMass (m1 m2 : ℚ) : MassSplit :=
  let sum := m1 + m2
  { fromNode := 1 - m1 / sum, toNode := 1 - m2 / sum }

/-- `getDegree` from the point class:
`deg = this.isNode ? this.linksFrom.length + this.linksTo.length : 0`,
returning `deg === 0 ? 1 : deg`. -/
def getDegree (isNode : Bool) (linksFromLen linksToLen : Nat) : Nat :=
  let deg := if isNode then linksFromLen + linksToLen else 0
  if deg = 0 then 1 else deg

/-! ## Theorems for claims C2 and C5 -/

/-- C2: for a link whose endpoint nodes have positive masses `m1`
(`fromNode.mass`) and `m2` (`toNode.mass`), `getMass` returns exactly
`{fromNode: 1 - m1/(m1+m2), toNode: 1 - m2/(m1+m2)}`, and the lighter
endpoint receives the larger share of the attractive force. -/
theorem getMass_splits_by_mass (m1 m2 : ℚ) (h1 : 0 < m1) (h2 : 0 < m2) :
    getMass m1 m2 = ⟨1 - m1 / (m1 + m2), 1 - m2 / (m1 + m2)⟩ ∧
    (m1 < m2 → (getMass m1 m2).toNode < (getMass m1 m2).fromNode) ∧
    (m2 < m1 → (getMass m1 m2).fromNode < (getMass m1 m2).toNode) := by
  have hsum : 0 < m1 + m2 := by linarith
  refine ⟨rfl, ?_, ?_⟩
  · intro hlt
    show 1 - m2 / (m1 + m2) < 1 - m1 / (m1 + m2)
    rw [sub_lt_sub_iff_left]
    exact (div_lt_div_iff_of_pos_right hsum).mpr hlt
  · intro hlt
    show 1 - m1 / (m1 + m2) < 1 - m2 / (m1 + m2)
    rw [sub_lt_sub_iff_left]
    exact (div_lt_div_iff_of_pos_right hsum).mpr hlt

/-- Witness for C2 at the concrete masses `m1 = 1`, `m2 = 3`. -/
theorem getMass_splits_by_mass_witness :
    (0 : ℚ) < 1 ∧ (0 : ℚ) < 3 ∧
    (getMass 1 3 = ⟨1 - 1 / (1 + 3), 1 - 3 / (1 + 3)⟩ ∧
     ((1 : ℚ) < 3 → (getMass 1 3).toNode < (getMass 1 3).fromNode) ∧
     ((3 : ℚ) < 1 → (getMass 1 3).fromNode < (getMass 1 3).toNode)) :=
  ⟨by norm_num, by norm_num,
    getMass_splits_by_mass 1 3 (by norm_num) (by norm_num)⟩

/-- C5: `getDegree` returns the number of incident links
(`linksFrom.length + linksTo.length`) when the point is a node with at
least one incident link, and `1` when that count is zero or the point is
not a node; in particular the result is always at least `1`. -/
theorem getDegree_floor_one (isNode : Bool) (lf lt : Nat) :
    (isNode = true → 1 ≤ lf + lt → getDegree isNode lf lt = lf + lt) ∧
    (isNode = false ∨ lf + lt = 0 → getDegree isNode lf lt = 1) ∧
    1 ≤ getDegree isNode lf lt := by
  refine ⟨?_, ?_, ?_⟩
  · rintro rfl h
    show (if lf + lt = 0 then 1 else lf + lt) = lf + lt
    split <;> omega
  · rintro (rfl | h)
    · rfl
    · cases isNode
      · rfl
      · show (if lf + lt = 0 then 1 else lf + lt) = 1
        rw [if_pos h]
  · cases isNode
    · exact le_refl 1
    · show 1 ≤ if lf + lt = 0 then 1 else lf + lt
      split <;> omega

/-- Witness for C5 at a node with 2 outgoing and 1 incoming link. -/
theorem getDegree_floor_one_witness :
    (true = true → 1 ≤ 2 + 1 → getDegree true 2 1 = 2 + 1) ∧
    (true = false ∨ 2 + 1 = 0 → getDegree true 2 1 = 1) ∧
    1 ≤ getDegree true 2 1 :=
  getDegree_floor_one true 2 1

/-! ## Draggable mode: `onMouseDown` / `onMouseMove` / `onMouseUp`

The pointer event is modelled already normalized (`chart.pointer.normalize`
only translates browser coordinates into chart coordinates; it is host
code outside this module).  `chart.isInsidePlot` is likewise host code and
is taken as an abstract boolean predicate on plot coordinates.  Calls into
the layout object (`setMaxIterations`, `setInitialRendering`, `run`,
`resetSimulation`, `stop`) are recorded as an ordered trace of operations;
the `redrawHalo` call is purely visual and not modelled. -/

/-- The position snapshot stored on the point by `onMouseDown`:
chart coordinates of the gesture start and the plot position then. -/
structure FixedPos where
  chartX : ℚ
  chartY : ℚ
  plotX : ℚ
  plotY : ℚ
deriving DecidableEq, Repr

/-- The drag-relevant state of a networkgraph point. -/
structure DragPoint where
  plotX : ℚ
  plotY : ℚ
  fixedPosition : Option FixedPos
  inDragMode : Bool
deriving DecidableEq, Repr

/-- A normalized pointer event (chart coordinates). -/
structure PointerEvent where
  chartX : ℚ
  chartY : ℚ
deriving DecidableEq, Repr

/-- The layout-object state read by the drag handlers. -/
structure DragLayout where
  /-- Truthy when a live simulation is currently running
  (`series.layout.simulation`). -/
  simulation : Bool
  /-- `series.layout.enableSimulation`. -/
  enableSimulation : Bool
deriving DecidableEq, Repr

/-- One call made on the layout object, in program order. -/
inductive LayoutOp where
  | setMaxIterations (n : Nat)
  | setInitialRendering (b : Bool)
  | run
  | resetSimulation
  | stop
  | removeNode
  | removeLink
deriving DecidableEq, Repr

/-- `onMouseDown`: stores the gesture-start snapshot and enters drag mode. -/
def onMouseDown (point : DragPoint) (e : PointerEvent) : DragPoint :=
  { point with
    fixedPosition := some
      { chartX := e.chartX, chartY := e.chartY,
        plotX := point.plotX, plotY := point.plotY },
    inDragMode := true }

/-- `onMouseMove`: when the point is in drag mode, moves it to the dragged
position provided the displacement exceeds 5px on some axis and the new
position is inside the plot, and then either starts a bounded simulation
run (single iteration when live simulation is disabled, with initial
rendering suppressed around the `run()`), or, when a simulation is already
running, extends it via `resetSimulation()`.  Returns the updated point
and the trace of layout calls. -/
def onMouseMove (isInsidePlot : ℚ → ℚ → Bool) (layout : DragLayout)
    (point : DragPoint) (e : PointerEvent) : DragPoint × List LayoutOp :=
  match point.fixedPosition, point.inDragMode with
  | some fixed, true =>
    let diffX := fixed.chartX - e.chartX
    let diffY := fixed.chartY - e.chartY
    -- At least 5px to apply change (avoids simple click):
    if 5 < |diffX| ∨ 5 < |diffY| then
      let newPlotX := fixed.plotX - diffX
      let newPlotY := fixed.plotY - diffY
      if isInsidePlot newPlotX newPlotY then
        let ops :=
          if layout.simulation = false then
            -- Start new simulation:
            (if layout.enableSimulation = false then
              -- Run only one iteration to speed things up:
              [LayoutOp.setMaxIterations 1]
            else []) ++
            [LayoutOp.setInitialRendering false, LayoutOp.run,
             LayoutOp.setInitialRendering true]
          else
            -- Extend current simulation:
            [LayoutOp.resetSimulation]
        ({ point with plotX := newPlotX, plotY := newPlotY }, ops)
      else (point, [])
    else (point, [])
  | _, _ => (point, [])

/-- `onMouseUp`: when a fixed position is stored, runs the layout, leaves
drag mode, and deletes the pin unless the series option `fixedDraggable`
is set. -/
def onMouseUp (fixedDraggable : Bool) (point : DragPoint) :
    DragPoint × List LayoutOp :=
  match point.fixedPosition with
  | some _ =>
    let p1 := { point with inDragMode := false }
    let p2 := if fixedDraggable then p1 else { p1 with fixedPosition := none }
    (p2, [LayoutOp.run])
  | none => (point, [])

/-- Folding `onMouseMove` over a sequence of pointer events: the point's
trajectory through one drag gesture. -/
def dragMoves (isInsidePlot : ℚ → ℚ → Bool) (layout : DragLayout)
    (point : DragPoint) (events : List PointerEvent) : DragPoint :=
  events.foldl (fun p e => (onMouseMove isInsidePlot layout p e).1) point

/-! ## Lifecycle event handlers (`updatedData`, `predraw`, `render`) -/

/-- The `updatedData` handler on a networkgraph series: stops the series'
layout when one is attached.  The layout is identified by its key in
`chart.graphLayoutsStorage`. -/
def updatedDataHandler (layout : Option String) : List (String × LayoutOp) :=
  match layout with
  | some l => [(l, LayoutOp.stop)]
  | none => []

/-- The chart `predraw` handler: stops every layout in
`chart.graphLayoutsStorage`. -/
def predrawHandler (storageKeys : List String) : List (String × LayoutOp) :=
  storageKeys.map (fun l => (l, LayoutOp.stop))

/-- The chart `render` handler: runs every layout in
`chart.graphLayoutsStorage`. -/
def renderHandler (storageKeys : List String) : List (String × LayoutOp) :=
  storageKeys.map (fun l => (l, LayoutOp.run))

/-- The layout calls issued over one chart redraw: the `predraw` phase
followed by the `render` phase. -/
def redrawTrace (storageKeys : List String) : List (String × LayoutOp) :=
  predrawHandler storageKeys ++ renderHandler storageKeys

/-! ## Theorems for claims C6, C7, C8, C10 -/

/-- C6: during a drag (`fixedPosition` and `inDragMode` set), the point's
plot position changes only when the displacement since gesture start
exceeds 5px on some axis; when both components stay at or below 5px (a
simple click), the point is left unchanged and no layout call is made. -/
theorem onMouseMove_click_not_drag (inside : ℚ → ℚ → Bool)
    (layout : DragLayout) (point : DragPoint) (e : PointerEvent)
    (fixed : FixedPos) (hfix : point.fixedPosition = some fixed)
    (hdrag : point.inDragMode = true) :
    (|fixed.chartX - e.chartX| ≤ 5 → |fixed.chartY - e.chartY| ≤ 5 →
      onMouseMove inside layout point e = (point, [])) ∧
    ((onMouseMove inside layout point e).1 ≠ point →
      5 < |fixed.chartX - e.chartX| ∨ 5 < |fixed.chartY - e.chartY|) := by
  constructor
  · intro hx hy
    have hthr : ¬(5 < |fixed.chartX - e.chartX| ∨
        5 < |fixed.chartY - e.chartY|) := by
      push_neg
      exact ⟨hx, hy⟩
    simp [onMouseMove, hfix, hdrag, hthr]
  · intro hne
    by_cases hthr : 5 < |fixed.chartX - e.chartX| ∨
        5 < |fixed.chartY - e.chartY|
    · exact hthr
    · exfalso
      exact hne (by simp [onMouseMove, hfix, hdrag, hthr])

/-- Gesture-start snapshot used by the interaction witnesses. -/
def testFixed : FixedPos :=
  { chartX := 100, chartY := 100, plotX := 10, plotY := 10 }

/-- Pinned, in-drag point used by the interaction witnesses. -/
def testPoint : DragPoint :=
  { plotX := 10, plotY := 10, fixedPosition := some testFixed,
    inDragMode := true }

/-- An `isInsidePlot` predicate that accepts every position. -/
def allInside : ℚ → ℚ → Bool := fun _ _ => true

/-- Witness for C6: a 3px-by-0px move of a pinned point is a click and
changes nothing. -/
theorem onMouseMove_click_not_drag_witness :
    testPoint.fixedPosition = some testFixed ∧
    testPoint.inDragMode = true ∧
    (|testFixed.chartX - (103 : ℚ)| ≤ 5 → |testFixed.chartY - (100 : ℚ)| ≤ 5 →
      onMouseMove allInside ⟨false, false⟩ testPoint ⟨103, 100⟩ =
        (testPoint, [])) :=
  ⟨rfl, rfl,
    (onMouseMove_click_not_drag allInside ⟨false, false⟩ testPoint ⟨103, 100⟩
      testFixed rfl rfl).1⟩

/-- C7: when a drag actually moves the point (threshold exceeded, new
position inside the plot), the layout calls are: with no simulation
running and live simulation disabled, `setMaxIterations(1)` then a `run()`
bracketed by `setInitialRendering(false)`/`setInitialRendering(true)`;
with no simulation running and live simulation enabled, the bracketed
`run()` alone (a full run); with a simulation already running, only
`resetSimulation()` and in particular no `run()`. -/
theorem onMouseMove_run_modes (inside : ℚ → ℚ → Bool) (layout : DragLayout)
    (point : DragPoint) (e : PointerEvent) (fixed : FixedPos)
    (hfix : point.fixedPosition = some fixed)
    (hdrag : point.inDragMode = true)
    (hthr : 5 < |fixed.chartX - e.chartX| ∨ 5 < |fixed.chartY - e.chartY|)
    (hin : inside (fixed.plotX - (fixed.chartX - e.chartX))
      (fixed.plotY - (fixed.chartY - e.chartY)) = true) :
    (layout.simulation = false → layout.enableSimulation = false →
      (onMouseMove inside layout point e).2 =
        [LayoutOp.setMaxIterations 1, LayoutOp.setInitialRendering false,
         LayoutOp.run, LayoutOp.setInitialRendering true]) ∧
    (layout.simulation = false → layout.enableSimulation = true →
      (onMouseMove inside layout point e).2 =
        [LayoutOp.setInitialRendering false, LayoutOp.run,
         LayoutOp.setInitialRendering true]) ∧
    (layout.simulation = true →
      (onMouseMove inside layout point e).2 = [LayoutOp.resetSimulation] ∧
      LayoutOp.run ∉ (onMouseMove inside layout point e).2) := by
  refine ⟨?_, ?_, ?_⟩
  · intro hsim hena
    simp [onMouseMove, hfix, hdrag, hthr, hin, hsim, hena]
  · intro hsim hena
    simp [onMouseMove, hfix, hdrag, hthr, hin, hsim, hena]
  · intro hsim
    constructor
    · simp [onMouseMove, hfix, hdrag, hthr, hin, hsim]
    · simp [onMouseMove, hfix, hdrag, hthr, hin, hsim]

/-- Witness for C7: a 10px horizontal drag while a simulation is already
running extends it with `resetSimulation()` only and issues no `run()`. -/
theorem onMouseMove_run_modes_witness :
    testPoint.fixedPosition = some testFixed ∧
    testPoint.inDragMode = true ∧
    (5 < |testFixed.chartX - (110 : ℚ)| ∨
      5 < |testFixed.chartY - (100 : ℚ)|) ∧
    allInside (testFixed.plotX - (testFixed.chartX - 110))
      (testFixed.plotY - (testFixed.chartY - 100)) = true ∧
    ((true : Bool) = true →
      (onMouseMove allInside ⟨true, false⟩ testPoint ⟨110, 100⟩).2 =
        [LayoutOp.resetSimulation] ∧
      LayoutOp.run ∉
        (onMouseMove allInside ⟨true, false⟩ testPoint ⟨110, 100⟩).2) :=
  ⟨rfl, rfl, Or.inl (by rw [lt_abs]; right; norm_num [testFixed]), rfl,
    (onMouseMove_run_modes allInside ⟨true, false⟩ testPoint ⟨110, 100⟩
      testFixed rfl rfl
      (Or.inl (by rw [lt_abs]; right; norm_num [testFixed])) rfl).2.2⟩

/-- C8: `onMouseUp` on a point holding a fixed pin runs the layout, leaves
drag mode, and removes the pin exactly when `fixedDraggable` is unset;
on a point without a pin it changes nothing and makes no layout call. -/
theorem onMouseUp_release (fixedDraggable : Bool) (point : DragPoint) :
    (∀ f, point.fixedPosition = some f →
      (onMouseUp fixedDraggable point).1.inDragMode = false ∧
      (onMouseUp fixedDraggable point).2 = [LayoutOp.run] ∧
      (fixedDraggable = false →
        (onMouseUp fixedDraggable point).1.fixedPosition = none) ∧
      (fixedDraggable = true →
        (onMouseUp fixedDraggable point).1.fixedPosition = some f)) ∧
    (point.fixedPosition = none →
      onMouseUp fixedDraggable point = (point, [])) := by
  constructor
  · intro f hf
    refine ⟨?_, ?_, ?_, ?_⟩
    · cases fixedDraggable <;> simp [onMouseUp, hf]
    · simp [onMouseUp, hf]
    · rintro rfl; simp [onMouseUp, hf]
    · rintro rfl; simp [onMouseUp, hf]
  · intro hf
    simp [onMouseUp, hf]

/-- Witness for C8 at a pinned point with `fixedDraggable` unset. -/
theorem onMouseUp_release_witness :
    testPoint.fixedPosition = some testFixed ∧
    ((onMouseUp false testPoint).1.inDragMode = false ∧
     (onMouseUp false testPoint).2 = [LayoutOp.run] ∧
     ((false : Bool) = false →
       (onMouseUp false testPoint).1.fixedPosition = none) ∧
     ((false : Bool) = true →
       (onMouseUp false testPoint).1.fixedPosition = some testFixed)) :=
  ⟨rfl, (onMouseUp_release false testPoint).1 testFixed rfl⟩

/-- One `onMouseMove` step either leaves the point untouched or moves it
to a position accepted by `isInsidePlot`. -/
theorem onMouseMove_step_inside (inside : ℚ → ℚ → Bool) (layout : DragLayout)
    (point : DragPoint) (e : PointerEvent) :
    (onMouseMove inside layout point e).1 = point ∨
    inside (onMouseMove inside layout point e).1.plotX
      (onMouseMove inside layout point e).1.plotY = true := by
  rcases hp : point.fixedPosition with _ | fixed
  · left
    simp [onMouseMove, hp]
  · cases hd : point.inDragMode
    · left
      simp [onMouseMove, hp, hd]
    · by_cases hthr : 5 < |fixed.chartX - e.chartX| ∨
          5 < |fixed.chartY - e.chartY|
      · by_cases hin : inside (fixed.plotX - (fixed.chartX - e.chartX))
            (fixed.plotY - (fixed.chartY - e.chartY)) = true
        · right
          simp [onMouseMove, hp, hd, hthr, hin]
        · left
          simp [onMouseMove, hp, hd, hthr, hin]
      · left
        simp [onMouseMove, hp, hd, hthr]

/-- C10: a drag can never place a node outside the plot area.  The dragged
position is assigned only when `isInsidePlot` accepts it; a proposed
position outside the plot leaves the point unchanged and triggers no
layout call; and over any sequence of `onMouseMove` events, a point that
starts inside the plot stays inside it. -/
theorem onMouseMove_stays_inside (inside : ℚ → ℚ → Bool)
    (layout : DragLayout) (point : DragPoint) :
    (∀ e fixed, point.fixedPosition = some fixed →
      point.inDragMode = true →
      (5 < |fixed.chartX - e.chartX| ∨ 5 < |fixed.chartY - e.chartY|) →
      inside (fixed.plotX - (fixed.chartX - e.chartX))
        (fixed.plotY - (fixed.chartY - e.chartY)) = false →
      onMouseMove inside layout point e = (point, [])) ∧
    (∀ e, (onMouseMove inside layout point e).1 ≠ point →
      inside (onMouseMove inside layout point e).1.plotX
        (onMouseMove inside layout point e).1.plotY = true) ∧
    (∀ events, inside point.plotX point.plotY = true →
      inside (dragMoves inside layout point events).plotX
        (dragMoves inside layout point events).plotY = true) := by
  refine ⟨?_, ?_, ?_⟩
  · intro e fixed hp hd hthr hout
    simp [onMouseMove, hp, hd, hthr, hout]
  · intro e hne
    rcases onMouseMove_step_inside inside layout point e with heq | hin
    · exact absurd heq hne
    · exact hin
  · intro events
    induction events generalizing point with
    | nil =>
      intro h0
      exact h0
    | cons e' es ih =>
      intro h0
      have h1 : inside (onMouseMove inside layout point e').1.plotX
          (onMouseMove inside layout point e').1.plotY = true := by
        rcases onMouseMove_step_inside inside layout point e' with heq | hin
        · rw [heq]
          exact h0
        · exact hin
      simpa [dragMoves] using ih (onMouseMove inside layout point e').1 h1

/-- Witness for C10: an out-of-plot drag target is rejected unchanged. -/
theorem onMouseMove_stays_inside_witness :
    (testPoint.fixedPosition = some testFixed ∧
      testPoint.inDragMode = true ∧
      (5 < |testFixed.chartX - (110 : ℚ)| ∨
        5 < |testFixed.chartY - (100 : ℚ)|) ∧
      (fun _ _ => (false : Bool))
        (testFixed.plotX - (testFixed.chartX - 110))
        (testFixed.plotY - (testFixed.chartY - 100)) = false) ∧
    onMouseMove (fun _ _ => false) ⟨false, false⟩ testPoint ⟨110, 100⟩ =
      (testPoint, []) :=
  ⟨⟨rfl, rfl, Or.inl (by rw [lt_abs]; right; norm_num [testFixed]), rfl⟩,
    (onMouseMove_stays_inside (fun _ _ => false) ⟨false, false⟩ testPoint).1
      ⟨110, 100⟩ testFixed rfl rfl
      (Or.inl (by rw [lt_abs]; right; norm_num [testFixed])) rfl⟩

/-! ## Theorem for claim C9 -/

/-- C9: stop always precedes the next run.  The `updatedData` handler
stops the series' layout (and runs nothing), and over one chart redraw
(the `predraw` phase followed by the `render` phase) every `run()` issued
to a layout is preceded by a `stop()` issued to that same layout. -/
theorem stop_precedes_run (storageKeys : List String) (l : String) :
    (updatedDataHandler (some l) = [(l, LayoutOp.stop)] ∧
      updatedDataHandler none = []) ∧
    (∀ j : Nat, (redrawTrace storageKeys)[j]? = some (l, LayoutOp.run) →
      ∃ i : Nat, i < j ∧
        (redrawTrace storageKeys)[i]? = some (l, LayoutOp.stop)) := by
  constructor
  · exact ⟨rfl, rfl⟩
  · intro j hj
    have hlen : (predrawHandler storageKeys).length = storageKeys.length :=
      List.length_map ..
    rcases Nat.lt_or_ge j storageKeys.length with hlt | hge
    · exfalso
      rw [redrawTrace, List.getElem?_append_left (by rw [hlen]; exact hlt),
        predrawHandler, List.getElem?_map] at hj
      rcases hx : storageKeys[j]? with _ | x
      · rw [hx] at hj
        exact Option.noConfusion hj
      · rw [hx] at hj
        rw [Option.map_some'] at hj
        have : LayoutOp.stop = LayoutOp.run := congrArg Prod.snd
          (Option.some.inj hj)
        exact LayoutOp.noConfusion this
    · rw [redrawTrace, List.getElem?_append_right (by rw [hlen]; exact hge),
        renderHandler, hlen, List.getElem?_map] at hj
      rcases hx : storageKeys[j - storageKeys.length]? with _ | x
      · rw [hx] at hj
        exact Option.noConfusion hj
      · rw [hx] at hj
        rw [Option.map_some'] at hj
        have hx2 : x = l := congrArg Prod.fst (Option.some.inj hj)
        have hidx : j - storageKeys.length < storageKeys.length :=
          (List.getElem?_eq_some_iff.mp hx).1
        refine ⟨j - storageKeys.length, by omega, ?_⟩
        rw [redrawTrace,
          List.getElem?_append_left (by rw [hlen]; exact hidx),
          predrawHandler, List.getElem?_map, hx, hx2]
        rfl

/-- Witness for C9: on a chart holding two layouts, the run of the second
layout at position 3 of the redraw trace is preceded by its stop. -/
theorem stop_precedes_run_witness :
    (redrawTrace ["reingold-fruchterman", "other"])[3]? =
      some ("other", LayoutOp.run) ∧
    ∃ i, i < 3 ∧ (redrawTrace ["reingold-fruchterman", "other"])[i]? =
      some ("other", LayoutOp.stop) :=
  ⟨rfl,
    (stop_precedes_run ["reingold-fruchterman", "other"] "other").2 3 rfl⟩

/-! ## `deferLayout` and `chart.graphLayoutsStorage`

`graphLayoutsStorage` is an object mapping the algorithm-type string to a
layout instance.  Instances are modelled as entries of an allocation list
`insts`; an instance's identity is its index in that list, and the storage
maps type keys to indices.  The layout constructor
(`new H.layouts[type](options)`) and `setArea` live in the separate
layouts module; here only the fields `deferLayout` itself writes (the
options captured at construction and the area set by `setArea`) are
modelled.  `layout.addSeries/addNodes/addLinks` only append to the
instance's registration lists and are irrelevant to instance identity and
area, so they are not modelled. -/

/-- The per-instance state of one layout in `graphLayoutsStorage`. -/
structure LayoutInst where
  /-- The `layoutAlgorithm.type` the instance was created for. -/
  typeKey : String
  /-- `enableSimulation` as fixed up by `deferLayout` for export mode. -/
  enableSimulation : Bool
  areaX : ℚ
  areaY : ℚ
  areaWidth : ℚ
  areaHeight : ℚ
deriving DecidableEq, Repr

/-- The chart state read and written by `deferLayout`. -/
structure GraphChart where
  /-- `chart.graphLayoutsStorage`: algorithm-type key to instance index. -/
  storage : List (String × Nat)
  /-- Allocated layout instances; identity is the index. -/
  insts : List LayoutInst
  plotWidth : ℚ
  plotHeight : ℚ
  /-- `chart.options.chart.forExport` (undefined or a boolean). -/
  forExport : Option Bool
deriving DecidableEq, Repr

/-- The series state read and written by `deferLayout`. -/
structure NGSeries where
  visible : Bool
  /-- `this.options.layoutAlgorithm.type`. -/
  layoutType : String
  /-- `this.options.layoutAlgorithm.enableSimulation`. -/
  layoutEnableSim : Bool
  /-- `this.layout`, as an instance index. -/
  layout : Option Nat
deriving DecidableEq, Repr

/-- Lookup `graphLayoutsStorage[layoutOptions.type]`. -/
def lookupStorage (storage : List (String × Nat)) (k : String) : Option Nat :=
  (storage.find? (fun e => e.1 == k)).map Prod.snd

/-- `layout.setArea(0, 0, w, h)` applied to the instance at index `i`. -/
def setAreaAt (insts : List LayoutInst) (i : Nat) (w h : ℚ) :
    List LayoutInst :=
  match insts[i]? with
  | some inst =>
    insts.set i
      { inst with areaX := 0, areaY := 0, areaWidth := w, areaHeight := h }
  | none => insts

/-- `deferLayout`: returns unchanged state for an invisible series;
otherwise finds the layout stored under the series' algorithm type,
creating and storing a fresh instance when none exists (fixing up
`enableSimulation` for export mode at construction), assigns it to
`this.layout`, and calls `setArea(0, 0, plotWidth, plotHeight)` on it. -/
def deferLayout (chart : GraphChart) (s : NGSeries) :
    GraphChart × NGSeries :=
  if s.visible = false then (chart, s)
  else
    let found :=
      match lookupStorage chart.storage s.layoutType with
      | some i => (chart, i)
      | none =>
        let esim :=
          match chart.forExport with
          | none => s.layoutEnableSim
          | some fe => !fe
        let inst : LayoutInst :=
          { typeKey := s.layoutType, enableSimulation := esim,
            areaX := 0, areaY := 0, areaWidth := 0, areaHeight := 0 }
        ({ chart with
            storage := chart.storage ++ [(s.layoutType, chart.insts.length)],
            insts := chart.insts ++ [inst] },
          chart.insts.length)
    ({ found.1 with
        insts := setAreaAt found.1.insts found.2
          chart.plotWidth chart.plotHeight },
      { s with layout := some found.2 })

/-- The area `(x, y, width, height)` of the instance at index `i`. -/
def areaOf (chart : GraphChart) (i : Nat) : Option (ℚ × ℚ × ℚ × ℚ) :=
  (chart.insts[i]?).map
    (fun inst => (inst.areaX, inst.areaY, inst.areaWidth, inst.areaHeight))

/-- Well-formedness of the layout storage: every stored index points into
the allocation list, no two entries share a type key, and no two entries
share an instance. -/
def ChartWF (c : GraphChart) : Prop :=
  (∀ e ∈ c.storage, e.2 < c.insts.length) ∧
  (c.storage.map Prod.fst).Nodup ∧
  (c.storage.map Prod.snd).Nodup

/-- A successful storage lookup comes from a stored entry. -/
theorem lookupStorage_mem {storage : List (String × Nat)} {k : String}
    {i : Nat} (h : lookupStorage storage k = some i) : (k, i) ∈ storage := by
  unfold lookupStorage at h
  rcases hf : storage.find? (fun e => e.1 == k) with _ | e
  · rw [hf] at h
    exact Option.noConfusion h
  · rw [hf, Option.map_some'] at h
    have hmem := List.mem_of_find?_eq_some hf
    rcases e with ⟨a, b⟩
    have hkey : a = k := by simpa using List.find?_some hf
    have hsnd : b = i := Option.some.inj h
    subst hkey
    subst hsnd
    exact hmem

/-- A failed storage lookup means no stored entry has that key. -/
theorem lookupStorage_none {storage : List (String × Nat)} {k : String}
    (h : lookupStorage storage k = none) : ∀ e ∈ storage, e.1 ≠ k := by
  unfold lookupStorage at h
  rcases hf : storage.find? (fun e => e.1 == k) with _ | e
  · intro e he hk
    have := List.find?_eq_none.mp hf e he
    simp [hk] at this
  · rw [hf] at h
    exact Option.noConfusion h

/-- `setAreaAt` does not change the number of instances. -/
theorem setAreaAt_length (insts : List LayoutInst) (i : Nat) (w h : ℚ) :
    (setAreaAt insts i w h).length = insts.length := by
  unfold setAreaAt
  rcases hi : insts[i]? with _ | inst
  · rfl
  · exact List.length_set ..

/-- `setAreaAt` at an allocated index sets exactly that instance's area. -/
theorem setAreaAt_get_self {insts : List LayoutInst} {i : Nat}
    {inst : LayoutInst} (hinst : insts[i]? = some inst) (w h : ℚ) :
    (setAreaAt insts i w h)[i]? =
      some { inst with
        areaX := 0
        areaY := 0
        areaWidth := w
        areaHeight := h } := by
  unfold setAreaAt
  rw [hinst]
  exact List.getElem?_set_self (List.getElem?_eq_some_iff.mp hinst).1

/-- `setAreaAt` leaves every other index unchanged. -/
theorem setAreaAt_get_other {insts : List LayoutInst} {i j : Nat}
    (hne : i ≠ j) (w h : ℚ) :
    (setAreaAt insts i w h)[j]? = insts[j]? := by
  unfold setAreaAt
  rcases hi : insts[i]? with _ | inst
  · rfl
  · exact List.getElem?_set_ne hne ..

/-- The instance index `deferLayout` assigns to a visible series: the
stored index for its algorithm type, or the index of the freshly
allocated instance. -/
def dlIndex (chart : GraphChart) (s : NGSeries) : Nat :=
  match lookupStorage chart.storage s.layoutType with
  | some i => i
  | none => chart.insts.length

/-- On a visible series, `deferLayout` sets `this.layout` to `dlIndex`. -/
theorem deferLayout_layout (chart : GraphChart) (s : NGSeries)
    (hv : s.visible = true) :
    (deferLayout chart s).2 = { s with layout := some (dlIndex chart s) } := by
  unfold deferLayout dlIndex
  rw [hv]
  rcases hl : lookupStorage chart.storage s.layoutType with _ | i <;> rfl

/-- When the type is already stored, `deferLayout` leaves the storage
unchanged and only re-sets the shared instance's area. -/
theorem deferLayout_found (chart : GraphChart) (s : NGSeries)
    (hv : s.visible = true) {i : Nat}
    (hl : lookupStorage chart.storage s.layoutType = some i) :
    (deferLayout chart s).1.storage = chart.storage ∧
    (deferLayout chart s).1.insts =
      setAreaAt chart.insts i chart.plotWidth chart.plotHeight ∧
    dlIndex chart s = i := by
  unfold deferLayout dlIndex
  rw [hv, hl]
  exact ⟨rfl, rfl, rfl⟩

/-- When the type is not stored yet, `deferLayout` appends a fresh
instance, stores it under the type, and sets its area. -/
theorem deferLayout_new (chart : GraphChart) (s : NGSeries)
    (hv : s.visible = true)
    (hl : lookupStorage chart.storage s.layoutType = none) :
    (deferLayout chart s).1.storage =
      chart.storage ++ [(s.layoutType, chart.insts.length)] ∧
    (∃ inst : LayoutInst, inst.typeKey = s.layoutType ∧
      (deferLayout chart s).1.insts =
        setAreaAt (chart.insts ++ [inst]) chart.insts.length
          chart.plotWidth chart.plotHeight) ∧
    dlIndex chart s = chart.insts.length := by
  unfold deferLayout dlIndex
  rw [hv, hl]
  exact ⟨rfl, ⟨_, rfl, rfl⟩, rfl⟩

/-- `deferLayout` does not change the chart's plot dimensions. -/
theorem deferLayout_plotDims (chart : GraphChart) (s : NGSeries) :
    (deferLayout chart s).1.plotWidth = chart.plotWidth ∧
    (deferLayout chart s).1.plotHeight = chart.plotHeight := by
  unfold deferLayout
  rcases hv : s.visible with _ | _
  · rw [if_pos rfl]
    exact ⟨rfl, rfl⟩
  · rw [if_neg (by simp)]
    rcases hl : lookupStorage chart.storage s.layoutType with _ | i <;>
      exact ⟨rfl, rfl⟩

/-- After `deferLayout` on a visible series, the series' type is stored
and maps to `dlIndex`. -/
theorem deferLayout_lookup_self (chart : GraphChart) (s : NGSeries)
    (hv : s.visible = true) :
    lookupStorage (deferLayout chart s).1.storage s.layoutType =
      some (dlIndex chart s) := by
  rcases hl : lookupStorage chart.storage s.layoutType with _ | i
  · obtain ⟨hst, _, hidx⟩ := deferLayout_new chart s hv hl
    rw [hst, hidx]
    unfold lookupStorage at hl ⊢
    rw [List.find?_append]
    have hf : chart.storage.find? (fun e => e.1 == s.layoutType) = none := by
      rcases h : chart.storage.find? (fun e => e.1 == s.layoutType) with _ | e
      · exact h
      · rw [h, Option.map_some'] at hl
        exact Option.noConfusion hl
    rw [hf]
    simp
  · obtain ⟨hst, _, hidx⟩ := deferLayout_found chart s hv hl
    rw [hst, hidx]
    exact hl

/-- Number of instances after `deferLayout` on a visible series: one more
when a fresh instance was allocated, unchanged otherwise. -/
theorem deferLayout_instsLength (chart : GraphChart) (s : NGSeries)
    (hv : s.visible = true) :
    (deferLayout chart s).1.insts.length = chart.insts.length ∨
    ((lookupStorage chart.storage s.layoutType = none) ∧
      (deferLayout chart s).1.insts.length = chart.insts.length + 1) := by
  rcases hl : lookupStorage chart.storage s.layoutType with _ | i
  · right
    obtain ⟨_, ⟨inst, _, hinsts⟩, _⟩ := deferLayout_new chart s hv hl
    refine ⟨rfl, ?_⟩
    rw [hinsts, setAreaAt_length, List.length_append]
    rfl
  · left
    obtain ⟨_, hinsts, _⟩ := deferLayout_found chart s hv hl
    rw [hinsts, setAreaAt_length]

/-- `deferLayout` preserves well-formedness of the layout storage. -/
theorem deferLayout_WF (chart : GraphChart) (s : NGSeries)
    (hwf : ChartWF chart) : ChartWF (deferLayout chart s).1 := by
  obtain ⟨hbound, hkeys, hvals⟩ := hwf
  rcases hv : s.visible with _ | _
  · unfold deferLayout
    rw [hv, if_pos rfl]
    exact ⟨hbound, hkeys, hvals⟩
  · rcases hl : lookupStorage chart.storage s.layoutType with _ | i
    · obtain ⟨hst, ⟨inst, _, hinsts⟩, _⟩ := deferLayout_new chart s hv hl
      have hlen : (deferLayout chart s).1.insts.length =
          chart.insts.length + 1 := by
        rw [hinsts, setAreaAt_length, List.length_append]
        rfl
      have hfresh := lookupStorage_none hl
      refine ⟨?_, ?_, ?_⟩
      · intro e he
        rw [hst] at he
        rw [hlen]
        rcases List.mem_append.mp he with h | h
        · exact Nat.lt_succ_of_lt (hbound e h)
        · rcases List.mem_singleton.mp h with rfl
          exact Nat.lt_succ_self _
      · rw [hst, List.map_append]
        rw [List.nodup_append]
        refine ⟨hkeys, List.nodup_singleton _, ?_⟩
        intro a ha hb
        rcases List.mem_map.mp ha with ⟨e, he, rfl⟩
        rcases List.mem_singleton.mp hb with h
        exact hfresh e he (by rw [h])
      · rw [hst, List.map_append]
        rw [List.nodup_append]
        refine ⟨hvals, List.nodup_singleton _, ?_⟩
        intro a ha hb
        rcases List.mem_map.mp ha with ⟨e, he, rfl⟩
        rcases List.mem_singleton.mp hb with h
        have := hbound e he
        omega
    · obtain ⟨hst, hinsts, _⟩ := deferLayout_found chart s hv hl
      have hlen : (deferLayout chart s).1.insts.length =
          chart.insts.length := by
        rw [hinsts, setAreaAt_length]
      rw [ChartWF, hst, hlen]
      exact ⟨hbound, hkeys, hvals⟩

/-- After `deferLayout` on a visible series, the assigned instance's area
is `(0, 0, plotWidth, plotHeight)` of the chart. -/
theorem deferLayout_area (chart : GraphChart) (s : NGSeries)
    (hwf : ChartWF chart) (hv : s.visible = true) :
    areaOf (deferLayout chart s).1 (dlIndex chart s) =
      some (0, 0, chart.plotWidth, chart.plotHeight) := by
  rcases hl : lookupStorage chart.storage s.layoutType with _ | i
  · obtain ⟨_, ⟨inst, _, hinsts⟩, hidx⟩ := deferLayout_new chart s hv hl
    rw [areaOf, hidx, hinsts]
    have happ : (chart.insts ++ [inst])[chart.insts.length]? = some inst := by
      simp
    rw [setAreaAt_get_self happ]
    rfl
  · obtain ⟨_, hinsts, hidx⟩ := deferLayout_found chart s hv hl
    have hi : i < chart.insts.length := hwf.1 _ (lookupStorage_mem hl)
    rw [areaOf, hidx, hinsts,
      setAreaAt_get_self (List.getElem?_eq_getElem hi)]
    rfl

/-- A `deferLayout` call leaves the area of every other allocated
instance unchanged. -/
theorem deferLayout_area_other (chart : GraphChart) (s : NGSeries)
    (hv : s.visible = true) {j : Nat} (hj : j < chart.insts.length)
    (hne : dlIndex chart s ≠ j) :
    areaOf (deferLayout chart s).1 j = areaOf chart j := by
  rcases hl : lookupStorage chart.storage s.layoutType with _ | i
  · obtain ⟨_, ⟨inst, _, hinsts⟩, hidx⟩ := deferLayout_new chart s hv hl
    rw [areaOf, areaOf, hinsts,
      setAreaAt_get_other (by rw [← hidx]; exact hne),
      List.getElem?_append_left hj]
  · obtain ⟨_, hinsts, hidx⟩ := deferLayout_found chart s hv hl
    rw [areaOf, areaOf, hinsts,
      setAreaAt_get_other (by rw [← hidx]; exact hne)]

/-- `dlIndex` on a stored type is the stored index. -/
theorem dlIndex_of_lookup {c : GraphChart} {s : NGSeries} {i : Nat}
    (h : lookupStorage c.storage s.layoutType = some i) : dlIndex c s = i := by
  unfold dlIndex
  rw [h]

/-- `dlIndex` on an unknown type is the next allocation index. -/
theorem dlIndex_of_lookup_none {c : GraphChart} {s : NGSeries}
    (h : lookupStorage c.storage s.layoutType = none) :
    dlIndex c s = c.insts.length := by
  unfold dlIndex
  rw [h]

/-- With a well-formed storage, two entries sharing an instance index
have the same type key. -/
theorem storage_value_injective {c : GraphChart} (hwf : ChartWF c)
    {k1 k2 : String} {i : Nat} (h1 : (k1, i) ∈ c.storage)
    (h2 : (k2, i) ∈ c.storage) : k1 = k2 :=
  congrArg Prod.fst (List.inj_on_of_nodup_map hwf.2.2 h1 h2 rfl)

/-- C1: a layout instance is created once per algorithm type and shared.
On one chart, for two visible networkgraph series registered through
`deferLayout`: the first series receives an instance that is stored in
`graphLayoutsStorage` under its algorithm type; a second series with the
same `layoutAlgorithm.type` receives the very same instance; a second
series with a different `layoutAlgorithm.type` receives a distinct
instance; and every instance handed out has area
`(0, 0, plotWidth, plotHeight)` — on one chart all series request the
same area, so type and area together determine the shared instance. -/
theorem deferLayout_shared_instances (chart : GraphChart) (s1 s2 : NGSeries)
    (hwf : ChartWF chart) (h1 : s1.visible = true) (h2 : s2.visible = true) :
    ((deferLayout chart s1).2.layout = some (dlIndex chart s1)) ∧
    (s1.layoutType = s2.layoutType →
      (deferLayout (deferLayout chart s1).1 s2).2.layout =
        some (dlIndex chart s1) ∧
      lookupStorage (deferLayout (deferLayout chart s1).1 s2).1.storage
        s1.layoutType = some (dlIndex chart s1)) ∧
    (s1.layoutType ≠ s2.layoutType →
      (deferLayout (deferLayout chart s1).1 s2).2.layout ≠
        some (dlIndex chart s1)) ∧
    (areaOf (deferLayout (deferLayout chart s1).1 s2).1
        (dlIndex chart s1) =
      some (0, 0, chart.plotWidth, chart.plotHeight)) ∧
    (∀ i2, (deferLayout (deferLayout chart s1).1 s2).2.layout = some i2 →
      areaOf (deferLayout (deferLayout chart s1).1 s2).1 i2 =
        some (0, 0, chart.plotWidth, chart.plotHeight)) := by
  have hwf1 : ChartWF (deferLayout chart s1).1 := deferLayout_WF chart s1 hwf
  have hL1 : lookupStorage (deferLayout chart s1).1.storage s1.layoutType =
      some (dlIndex chart s1) := deferLayout_lookup_self chart s1 h1
  have hmem1 : (s1.layoutType, dlIndex chart s1) ∈
      (deferLayout chart s1).1.storage := lookupStorage_mem hL1
  have hbound1 : dlIndex chart s1 < (deferLayout chart s1).1.insts.length :=
    hwf1.1 _ hmem1
  have hdims := deferLayout_plotDims chart s1
  have hlay1 : (deferLayout chart s1).2.layout = some (dlIndex chart s1) :=
    congrArg NGSeries.layout (deferLayout_layout chart s1 h1)
  have hlay2 : (deferLayout (deferLayout chart s1).1 s2).2.layout =
      some (dlIndex (deferLayout chart s1).1 s2) :=
    congrArg NGSeries.layout
      (deferLayout_layout (deferLayout chart s1).1 s2 h2)
  refine ⟨hlay1, ?_, ?_, ?_, ?_⟩
  · intro hty
    have hidx2 : dlIndex (deferLayout chart s1).1 s2 = dlIndex chart s1 :=
      dlIndex_of_lookup (hty ▸ hL1)
    refine ⟨by rw [hlay2, hidx2], ?_⟩
    have hself := deferLayout_lookup_self (deferLayout chart s1).1 s2 h2
    rw [hidx2, ← hty] at hself
    exact hself
  · intro hty hcontra
    have hidx2 : dlIndex (deferLayout chart s1).1 s2 = dlIndex chart s1 :=
      Option.some.inj (hlay2.symm.trans hcontra)
    rcases hl2 : lookupStorage (deferLayout chart s1).1.storage
        s2.layoutType with _ | i2
    · have hd := dlIndex_of_lookup_none hl2
      omega
    · have hd := dlIndex_of_lookup hl2
      have hmem2 : (s2.layoutType, i2) ∈ (deferLayout chart s1).1.storage :=
        lookupStorage_mem hl2
      rw [← hd, hidx2] at hmem2
      exact hty (storage_value_injective hwf1 hmem1 hmem2)
  · by_cases hsame : dlIndex (deferLayout chart s1).1 s2 = dlIndex chart s1
    · have harea := deferLayout_area (deferLayout chart s1).1 s2 hwf1 h2
      rw [hsame, hdims.1, hdims.2] at harea
      exact harea
    · rw [deferLayout_area_other (deferLayout chart s1).1 s2 h2 hbound1
        hsame]
      exact deferLayout_area chart s1 hwf h1
  · intro i2 hi2
    have hival : dlIndex (deferLayout chart s1).1 s2 = i2 :=
      Option.some.inj (hlay2.symm.trans hi2)
    have harea := deferLayout_area (deferLayout chart s1).1 s2 hwf1 h2
    rw [hival, hdims.1, hdims.2] at harea
    exact harea

/-- Fresh chart used by the C1 witness. -/
def testChart : GraphChart :=
  { storage := [], insts := [], plotWidth := 600, plotHeight := 400,
    forExport := none }

/-- First visible series of the C1 witness. -/
def testSeries1 : NGSeries :=
  { visible := true, layoutType := "reingold-fruchterman",
    layoutEnableSim := false, layout := none }

/-- Second visible series of the C1 witness, same algorithm type. -/
def testSeries2 : NGSeries :=
  { visible := true, layoutType := "reingold-fruchterman",
    layoutEnableSim := true, layout := none }

/-- Witness for C1 on a fresh chart with two same-type visible series. -/
theorem deferLayout_shared_instances_witness :
    ChartWF testChart ∧ testSeries1.visible = true ∧
    testSeries2.visible = true ∧
    (((deferLayout testChart testSeries1).2.layout =
        some (dlIndex testChart testSeries1)) ∧
     (testSeries1.layoutType = testSeries2.layoutType →
       (deferLayout (deferLayout testChart testSeries1).1
           testSeries2).2.layout = some (dlIndex testChart testSeries1) ∧
       lookupStorage (deferLayout (deferLayout testChart testSeries1).1
           testSeries2).1.storage testSeries1.layoutType =
         some (dlIndex testChart testSeries1)) ∧
     (testSeries1.layoutType ≠ testSeries2.layoutType →
       (deferLayout (deferLayout testChart testSeries1).1
           testSeries2).2.layout ≠ some (dlIndex testChart testSeries1)) ∧
     (areaOf (deferLayout (deferLayout testChart testSeries1).1
         testSeries2).1 (dlIndex testChart testSeries1) =
       some (0, 0, testChart.plotWidth, testChart.plotHeight)) ∧
     (∀ i2, (deferLayout (deferLayout testChart testSeries1).1
         testSeries2).2.layout = some i2 →
       areaOf (deferLayout (deferLayout testChart testSeries1).1
           testSeries2).1 i2 =
         some (0, 0, testChart.plotWidth, testChart.plotHeight))) :=
  ⟨⟨by simp [testChart], by simp [testChart], by simp [testChart]⟩, rfl, rfl,
    deferLayout_shared_instances testChart testSeries1 testSeries2
      ⟨by simp [testChart], by simp [testChart], by simp [testChart]⟩
      rfl rfl⟩

/-! ## `generatePoints`: node and link bookkeeping

`generatePoints` walks the series' points (the links, carrying optional
`from`/`to` keys), building `nodeLookup` and `this.nodes`, wiring
`linksFrom`/`linksTo`/`fromNode`/`toNode`, and finally creating nodes for
the explicit `options.nodes` declarations.  A node is identified by its
key; `fromNode`/`toNode` are object references in JS and are modelled by
the referenced node's key (node keys are proved unique).  The color
assignment and the `point.name` fallback are presentational and not
modelled.  Links are recorded in `linksFrom`/`linksTo` by the point's
index in the series' point list. -/

/-- A node of the graph (`this.nodes` entries).  Only the fields touched
by this module are modelled: identity, incident-link lists, and the
current position (absent until the layout assigns one). -/
structure Node where
  id : String
  linksFrom : List Nat
  linksTo : List Nat
  plotX : Option ℚ
  plotY : Option ℚ
deriving DecidableEq, Repr

/-- A data point of the series: a link with optional endpoint keys and
the node references resolved by `generatePoints`. -/
structure LinkPoint where
  fromKey : Option String
  toKey : Option String
  fromNode : Option String
  toNode : Option String
deriving DecidableEq, Repr

/-- A freshly created node: given key, no incident links, no position. -/
def newNode (id : String) : Node :=
  { id := id, linksFrom := [], linksTo := [], plotX := none, plotY := none }

/-- Modelled from the spec: `createNode` is `H.NodesMixin.createNode` from
the separate nodes mixin, which is not part of this module's source.  Per
the spec (§3 Node, §4.4): a node is "created exactly once per unique key"
and "adding a node with an existing key is a no-op returning the existing
node (idempotent)"; a new node is appended to the series' node list. -/
def createNode (nodes : List Node) (id : String) : List Node :=
  if ∃ n ∈ nodes, n.id = id then nodes else nodes ++ [newNode id]

/-- The state threaded through `generatePoints`: the series' node list,
the keys already present in `nodeLookup`, and the points processed so
far (with their node references resolved). -/
structure GPState where
  nodes : List Node
  lookupKeys : List String
  donePoints : List LinkPoint
deriving DecidableEq, Repr

/-- `if (!nodeLookup[key]) nodeLookup[key] = this.createNode(key)`. -/
def ensureNode (st : GPState) (k : String) : GPState :=
  if k ∈ st.lookupKeys then st
  else { st with
    nodes := createNode st.nodes k
    lookupKeys := st.lookupKeys ++ [k] }

/-- `nodeLookup[point.from].linksFrom.push(point)`: records link index
`idx` on the node with key `k`. -/
def pushLinkFrom (nodes : List Node) (k : String) (idx : Nat) :
    List Node :=
  nodes.map (fun n =>
    if n.id = k then { n with linksFrom := n.linksFrom ++ [idx] } else n)

/-- `nodeLookup[point.to].linksTo.push(point)`. -/
def pushLinkTo (nodes : List Node) (k : String) (idx : Nat) : List Node :=
  nodes.map (fun n =>
    if n.id = k then { n with linksTo := n.linksTo ++ [idx] } else n)

/-- The `if (defined(point.from))` block: ensure the endpoint node exists,
record the link on it, and set `point.fromNode`. -/
def processFrom (st : GPState) (idx : Nat) (p : LinkPoint) :
    GPState × LinkPoint :=
  match p.fromKey with
  | some k =>
    let st1 := ensureNode st k
    ({ st1 with nodes := pushLinkFrom st1.nodes k idx },
      { p with fromNode := some k })
  | none => (st, p)

/-- The `if (defined(point.to))` block. -/
def processTo (st : GPState) (idx : Nat) (p : LinkPoint) :
    GPState × LinkPoint :=
  match p.toKey with
  | some k =>
    let st1 := ensureNode st k
    ({ st1 with nodes := pushLinkTo st1.nodes k idx },
      { p with toNode := some k })
  | none => (st, p)

/-- Processing of one point of `this.points.forEach`. -/
def processPoint (st : GPState) (idx : Nat) (p : LinkPoint) : GPState :=
  let f := processFrom st idx p
  let t := processTo f.1 idx f.2
  { t.1 with donePoints := t.1.donePoints ++ [t.2] }

/-- The reset loop: `node.linksFrom.length = 0; node.linksTo.length = 0`
for every existing node (links from the previous run are discarded,
positions are kept). -/
def resetLinks (nodes : List Node) : List Node :=
  nodes.map (fun n => { n with linksFrom := [], linksTo := [] })

/-- `generatePoints`, starting from the node list `nodes0` left by a
previous run (empty on the first run): resets the incident-link lists,
processes every point, then creates nodes for the explicit
`options.nodes` declarations. -/
def generatePoints (nodes0 : List Node) (pts : List LinkPoint)
    (optionNodeIds : List String) : GPState :=
  let st0 : GPState :=
    { nodes := resetLinks nodes0, lookupKeys := [], donePoints := [] }
  let st1 := (pts.enum).foldl (fun st ip => processPoint st ip.1 ip.2) st0
  optionNodeIds.foldl ensureNode st1

/-- The keys of the series' node list. -/
def nodeIds (nodes : List Node) : List String := nodes.map Node.id

/-- How many nodes carry the key `k`. -/
def nodeCount (nodes : List Node) (k : String) : Nat :=
  (nodes.filter (fun n => n.id == k)).length

/-- The endpoint keys of a point, which `generatePoints` never changes. -/
def pointKeys (p : LinkPoint) : Option String × Option String :=
  (p.fromKey, p.toKey)

/-- A processed point's node references are resolved against `nodes`:
whenever an endpoint key is present, the reference carries that key and a
node with that key exists. -/
def keyResolved (nodes : List Node) (p : LinkPoint) : Prop :=
  (∀ k, p.fromKey = some k → p.fromNode = some k ∧ k ∈ nodeIds nodes) ∧
  (∀ k, p.toKey = some k → p.toNode = some k ∧ k ∈ nodeIds nodes)

/-- `new` keeps every node of `old`: same key, same position (incident
links may differ). -/
def preservesNodes (old new : List Node) : Prop :=
  ∀ n ∈ old, ∃ m ∈ new, m.id = n.id ∧ m.plotX = n.plotX ∧ m.plotY = n.plotY

/-- The `generatePoints` loop invariant: node keys are unique, nodes of
the initial list survive with their positions, every lookup key has a
node, and every processed point is resolved. -/
def GPInv (nodes0 : List Node) (st : GPState) : Prop :=
  (nodeIds st.nodes).Nodup ∧
  preservesNodes nodes0 st.nodes ∧
  (∀ k ∈ st.lookupKeys, k ∈ nodeIds st.nodes) ∧
  (∀ p ∈ st.donePoints, keyResolved st.nodes p)

/-- A key is in `nodeIds` exactly when some node carries it. -/
theorem mem_nodeIds {nodes : List Node} {k : String} :
    k ∈ nodeIds nodes ↔ ∃ n ∈ nodes, n.id = k := by
  simp [nodeIds]

/-- `createNode` on an existing key is a no-op. -/
theorem createNode_of_mem {nodes : List Node} {k : String}
    (h : k ∈ nodeIds nodes) : createNode nodes k = nodes := by
  rw [createNode, if_pos (mem_nodeIds.mp h)]

/-- `createNode` on a fresh key appends one new node. -/
theorem createNode_of_not_mem {nodes : List Node} {k : String}
    (h : k ∉ nodeIds nodes) : createNode nodes k = nodes ++ [newNode k] := by
  rw [createNode, if_neg (fun hc => h (mem_nodeIds.mpr hc))]

/-- After `createNode nodes k`, a node with key `k` exists. -/
theorem mem_nodeIds_createNode (nodes : List Node) (k : String) :
    k ∈ nodeIds (createNode nodes k) := by
  by_cases h : k ∈ nodeIds nodes
  · rw [createNode_of_mem h]
    exact h
  · rw [createNode_of_not_mem h, nodeIds, List.map_append]
    exact List.mem_append.mpr (Or.inr (by simp [newNode]))

/-- `createNode` keeps every existing key. -/
theorem nodeIds_createNode_mono (nodes : List Node) (k : String) :
    ∀ j ∈ nodeIds nodes, j ∈ nodeIds (createNode nodes k) := by
  intro j hj
  by_cases h : k ∈ nodeIds nodes
  · rw [createNode_of_mem h]
    exact hj
  · rw [createNode_of_not_mem h, nodeIds, List.map_append]
    exact List.mem_append.mpr (Or.inl hj)

/-- `createNode` never duplicates a key. -/
theorem nodup_createNode {nodes : List Node} {k : String}
    (h : (nodeIds nodes).Nodup) : (nodeIds (createNode nodes k)).Nodup := by
  by_cases hm : k ∈ nodeIds nodes
  · rw [createNode_of_mem hm]
    exact h
  · rw [createNode_of_not_mem hm, nodeIds, List.map_append]
    rw [nodeIds] at h
    simp only [nodeIds] at hm
    simp [List.nodup_append, h, hm, newNode]

/-- `createNode` keeps existing nodes with their positions. -/
theorem preserves_createNode (nodes : List Node) (k : String) :
    preservesNodes nodes (createNode nodes k) := by
  intro n hn
  by_cases h : k ∈ nodeIds nodes
  · rw [createNode_of_mem h]
    exact ⟨n, hn, rfl, rfl, rfl⟩
  · rw [createNode_of_not_mem h]
    exact ⟨n, List.mem_append.mpr (Or.inl hn), rfl, rfl, rfl⟩

/-- `pushLinkFrom` does not change the key list. -/
theorem nodeIds_pushLinkFrom (nodes : List Node) (k : String) (idx : Nat) :
    nodeIds (pushLinkFrom nodes k idx) = nodeIds nodes := by
  rw [nodeIds, pushLinkFrom, List.map_map, nodeIds]
  apply List.map_congr_left
  intro n hn
  by_cases h : n.id = k <;> simp [h]

/-- `pushLinkTo` does not change the key list. -/
theorem nodeIds_pushLinkTo (nodes : List Node) (k : String) (idx : Nat) :
    nodeIds (pushLinkTo nodes k idx) = nodeIds nodes := by
  rw [nodeIds, pushLinkTo, List.map_map, nodeIds]
  apply List.map_congr_left
  intro n hn
  by_cases h : n.id = k <;> simp [h]

/-- `pushLinkFrom` keeps every node's key and position. -/
theorem preserves_pushLinkFrom (nodes : List Node) (k : String)
    (idx : Nat) : preservesNodes nodes (pushLinkFrom nodes k idx) := by
  intro n hn
  refine ⟨_, List.mem_map_of_mem
    (fun n => if n.id = k then
      { n with linksFrom := n.linksFrom ++ [idx] } else n) hn,
    ?_, ?_, ?_⟩ <;> by_cases h : n.id = k <;> simp [h]

/-- `pushLinkTo` keeps every node's key and position. -/
theorem preserves_pushLinkTo (nodes : List Node) (k : String)
    (idx : Nat) : preservesNodes nodes (pushLinkTo nodes k idx) := by
  intro n hn
  refine ⟨_, List.mem_map_of_mem
    (fun n => if n.id = k then
      { n with linksTo := n.linksTo ++ [idx] } else n) hn,
    ?_, ?_, ?_⟩ <;> by_cases h : n.id = k <;> simp [h]

/-- `preservesNodes` is transitive. -/
theorem preservesNodes_trans {a b c : List Node}
    (h1 : preservesNodes a b) (h2 : preservesNodes b c) :
    preservesNodes a c := by
  intro n hn
  obtain ⟨m, hm, hid, hx, hy⟩ := h1 n hn
  obtain ⟨o, ho, hid2, hx2, hy2⟩ := h2 m hm
  exact ⟨o, ho, hid2.trans hid, hx2.trans hx, hy2.trans hy⟩

/-- Resolution of a point survives any growth of the key list. -/
theorem keyResolved_mono {a b : List Node}
    (hsub : ∀ j ∈ nodeIds a, j ∈ nodeIds b) {p : LinkPoint}
    (h : keyResolved a p) : keyResolved b p := by
  obtain ⟨hf, ht⟩ := h
  constructor
  · intro k hk
    obtain ⟨h1, h2⟩ := hf k hk
    exact ⟨h1, hsub _ h2⟩
  · intro k hk
    obtain ⟨h1, h2⟩ := ht k hk
    exact ⟨h1, hsub _ h2⟩

/-- `ensureNode` preserves the invariant, guarantees a node for its key,
only grows the key list, and leaves processed points untouched. -/
theorem ensureNode_inv {nodes0 : List Node} {st : GPState} (k : String)
    (h : GPInv nodes0 st) :
    GPInv nodes0 (ensureNode st k) ∧
    k ∈ nodeIds (ensureNode st k).nodes ∧
    (∀ j ∈ nodeIds st.nodes, j ∈ nodeIds (ensureNode st k).nodes) ∧
    (ensureNode st k).donePoints = st.donePoints := by
  obtain ⟨hnd, hpres, hlk, hdone⟩ := h
  by_cases hk : k ∈ st.lookupKeys
  · rw [ensureNode, if_pos hk]
    exact ⟨⟨hnd, hpres, hlk, hdone⟩, hlk k hk, fun j hj => hj, rfl⟩
  · rw [ensureNode, if_neg hk]
    have hmono := nodeIds_createNode_mono st.nodes k
    refine ⟨⟨nodup_createNode hnd,
      preservesNodes_trans hpres (preserves_createNode _ _), ?_, ?_⟩,
      mem_nodeIds_createNode _ _, hmono, rfl⟩
    · intro j hj
      rcases List.mem_append.mp hj with hj | hj
      · exact hmono j (hlk j hj)
      · rcases List.mem_singleton.mp hj with rfl
        exact mem_nodeIds_createNode _ _
    · intro p hp
      exact keyResolved_mono hmono (hdone p hp)

/-- Equation lemma: `processFrom` without a `from` key is the identity. -/
theorem processFrom_none {st : GPState} {idx : Nat} {p : LinkPoint}
    (hf : p.fromKey = none) : processFrom st idx p = (st, p) := by
  simp only [processFrom, hf]

/-- Equation lemma: `processFrom` with a `from` key ensures the node,
records the link and resolves the reference. -/
theorem processFrom_some {st : GPState} {idx : Nat} {p : LinkPoint}
    {k : String} (hf : p.fromKey = some k) :
    processFrom st idx p =
      ({ ensureNode st k with
          nodes := pushLinkFrom (ensureNode st k).nodes k idx },
        { p with fromNode := some k }) := by
  simp only [processFrom, hf]

/-- Equation lemma: `processTo` without a `to` key is the identity. -/
theorem processTo_none {st : GPState} {idx : Nat} {p : LinkPoint}
    (hf : p.toKey = none) : processTo st idx p = (st, p) := by
  simp only [processTo, hf]

/-- Equation lemma: `processTo` with a `to` key ensures the node, records
the link and resolves the reference. -/
theorem processTo_some {st : GPState} {idx : Nat} {p : LinkPoint}
    {k : String} (hf : p.toKey = some k) :
    processTo st idx p =
      ({ ensureNode st k with
          nodes := pushLinkTo (ensureNode st k).nodes k idx },
        { p with toNode := some k }) := by
  simp only [processTo, hf]

/-- Effect of the `from` block: invariant kept, keys only grow, processed
points untouched, the point's other fields untouched, and the `from`
endpoint resolved when present. -/
theorem processFrom_spec {nodes0 : List Node} {st : GPState} (idx : Nat)
    (p : LinkPoint) (h : GPInv nodes0 st) :
    GPInv nodes0 (processFrom st idx p).1 ∧
    (∀ j ∈ nodeIds st.nodes, j ∈ nodeIds (processFrom st idx p).1.nodes) ∧
    (processFrom st idx p).1.donePoints = st.donePoints ∧
    (processFrom st idx p).2.fromKey = p.fromKey ∧
    (processFrom st idx p).2.toKey = p.toKey ∧
    (processFrom st idx p).2.toNode = p.toNode ∧
    (∀ k, p.fromKey = some k →
      (processFrom st idx p).2.fromNode = some k ∧
      k ∈ nodeIds (processFrom st idx p).1.nodes) := by
  rcases hf : p.fromKey with _ | k
  · rw [processFrom_none hf]
    exact ⟨h, fun j hj => hj, rfl, hf, rfl, rfl,
      fun k2 hk2 => Option.noConfusion hk2⟩
  · rw [processFrom_some hf]
    obtain ⟨hinv1, hk1, hmono1, hdone1⟩ := ensureNode_inv k h
    obtain ⟨hnd, hpres, hlk, hdone⟩ := hinv1
    have hids : nodeIds (pushLinkFrom (ensureNode st k).nodes k idx) =
        nodeIds (ensureNode st k).nodes := nodeIds_pushLinkFrom ..
    refine ⟨⟨?_, ?_, ?_, ?_⟩, ?_, hdone1, hf, rfl, rfl, ?_⟩
    · show (nodeIds (pushLinkFrom (ensureNode st k).nodes k idx)).Nodup
      rw [hids]
      exact hnd
    · show preservesNodes nodes0 (pushLinkFrom (ensureNode st k).nodes k idx)
      exact preservesNodes_trans hpres (preserves_pushLinkFrom _ _ _)
    · show ∀ j ∈ (ensureNode st k).lookupKeys,
        j ∈ nodeIds (pushLinkFrom (ensureNode st k).nodes k idx)
      intro j hj
      rw [hids]
      exact hlk j hj
    · show ∀ q ∈ (ensureNode st k).donePoints,
        keyResolved (pushLinkFrom (ensureNode st k).nodes k idx) q
      intro q hq
      exact keyResolved_mono (fun j hj => by rw [hids]; exact hj)
        (hdone q hq)
    · intro j hj
      show j ∈ nodeIds (pushLinkFrom (ensureNode st k).nodes k idx)
      rw [hids]
      exact hmono1 j hj
    · intro k2 hk2
      have hkk : k2 = k := (Option.some.inj hk2).symm
      subst hkk
      refine ⟨rfl, ?_⟩
      show k2 ∈ nodeIds (pushLinkFrom (ensureNode st k2).nodes k2 idx)
      rw [nodeIds_pushLinkFrom]
      exact hk1

/-- Effect of the `to` block, mirror image of `processFrom_spec`. -/
theorem processTo_spec {nodes0 : List Node} {st : GPState} (idx : Nat)
    (p : LinkPoint) (h : GPInv nodes0 st) :
    GPInv nodes0 (processTo st idx p).1 ∧
    (∀ j ∈ nodeIds st.nodes, j ∈ nodeIds (processTo st idx p).1.nodes) ∧
    (processTo st idx p).1.donePoints = st.donePoints ∧
    (processTo st idx p).2.fromKey = p.fromKey ∧
    (processTo st idx p).2.toKey = p.toKey ∧
    (processTo st idx p).2.fromNode = p.fromNode ∧
    (∀ k, p.toKey = some k →
      (processTo st idx p).2.toNode = some k ∧
      k ∈ nodeIds (processTo st idx p).1.nodes) := by
  rcases hf : p.toKey with _ | k
  · rw [processTo_none hf]
    exact ⟨h, fun j hj => hj, rfl, rfl, hf, rfl,
      fun k2 hk2 => Option.noConfusion hk2⟩
  · rw [processTo_some hf]
    obtain ⟨hinv1, hk1, hmono1, hdone1⟩ := ensureNode_inv k h
    obtain ⟨hnd, hpres, hlk, hdone⟩ := hinv1
    have hids : nodeIds (pushLinkTo (ensureNode st k).nodes k idx) =
        nodeIds (ensureNode st k).nodes := nodeIds_pushLinkTo ..
    refine ⟨⟨?_, ?_, ?_, ?_⟩, ?_, hdone1, rfl, hf, rfl, ?_⟩
    · show (nodeIds (pushLinkTo (ensureNode st k).nodes k idx)).Nodup
      rw [hids]
      exact hnd
    · show preservesNodes nodes0 (pushLinkTo (ensureNode st k).nodes k idx)
      exact preservesNodes_trans hpres (preserves_pushLinkTo _ _ _)
    · show ∀ j ∈ (ensureNode st k).lookupKeys,
        j ∈ nodeIds (pushLinkTo (ensureNode st k).nodes k idx)
      intro j hj
      rw [hids]
      exact hlk j hj
    · show ∀ q ∈ (ensureNode st k).donePoints,
        keyResolved (pushLinkTo (ensureNode st k).nodes k idx) q
      intro q hq
      exact keyResolved_mono (fun j hj => by rw [hids]; exact hj)
        (hdone q hq)
    · intro j hj
      show j ∈ nodeIds (pushLinkTo (ensureNode st k).nodes k idx)
      rw [hids]
      exact hmono1 j hj
    · intro k2 hk2
      have hkk : k2 = k := (Option.some.inj hk2).symm
      subst hkk
      refine ⟨rfl, ?_⟩
      show k2 ∈ nodeIds (pushLinkTo (ensureNode st k2).nodes k2 idx)
      rw [nodeIds_pushLinkTo]
      exact hk1

/-- Processing one point keeps the invariant, appends exactly one
processed point with the original keys, and only grows the key set. -/
theorem processPoint_spec {nodes0 : List Node} {st : GPState} (idx : Nat)
    (p : LinkPoint) (h : GPInv nodes0 st) :
    GPInv nodes0 (processPoint st idx p) ∧
    (processPoint st idx p).donePoints.map pointKeys =
      st.donePoints.map pointKeys ++ [pointKeys p] ∧
    (∀ j ∈ nodeIds st.nodes, j ∈ nodeIds (processPoint st idx p).nodes) := by
  obtain ⟨hFinv, hFmono, hFdone, hFfk, hFtk, hFtn, hFres⟩ :=
    processFrom_spec idx p h
  obtain ⟨hTinv, hTmono, hTdone, hTfk, hTtk, hTfn, hTres⟩ :=
    processTo_spec idx (processFrom st idx p).2 hFinv
  obtain ⟨hTnd, hTpres, hTlk, hTdres⟩ := hTinv
  have hq : keyResolved
      (processTo (processFrom st idx p).1 idx (processFrom st idx p).2).1.nodes
      (processTo (processFrom st idx p).1 idx (processFrom st idx p).2).2 := by
    constructor
    · intro k hk
      have hpf : p.fromKey = some k := hFfk.symm.trans (hTfk.symm.trans hk)
      obtain ⟨hn, hm⟩ := hFres k hpf
      exact ⟨hTfn.trans hn, hTmono k hm⟩
    · intro k hk
      have hpf : (processFrom st idx p).2.toKey = some k :=
        hTtk.symm.trans hk
      exact hTres k hpf
  refine ⟨⟨hTnd, hTpres, hTlk, ?_⟩, ?_, ?_⟩
  · show ∀ q ∈ (processTo (processFrom st idx p).1 idx
        (processFrom st idx p).2).1.donePoints ++
        [(processTo (processFrom st idx p).1 idx
          (processFrom st idx p).2).2],
      keyResolved (processTo (processFrom st idx p).1 idx
        (processFrom st idx p).2).1.nodes q
    intro q hqmem
    rcases List.mem_append.mp hqmem with hh | hh
    · exact hTdres q hh
    · rcases List.mem_singleton.mp hh with rfl
      exact hq
  · show ((processTo (processFrom st idx p).1 idx
        (processFrom st idx p).2).1.donePoints ++
        [(processTo (processFrom st idx p).1 idx
          (processFrom st idx p).2).2]).map pointKeys =
      st.donePoints.map pointKeys ++ [pointKeys p]
    rw [List.map_append, hTdone, hFdone]
    have hkeys : pointKeys (processTo (processFrom st idx p).1 idx
        (processFrom st idx p).2).2 = pointKeys p := by
      show ((processTo (processFrom st idx p).1 idx
          (processFrom st idx p).2).2.fromKey,
        (processTo (processFrom st idx p).1 idx
          (processFrom st idx p).2).2.toKey) = (p.fromKey, p.toKey)
      rw [hTfk, hFfk, hTtk, hFtk]
    rw [List.map_cons, List.map_nil, hkeys]
  · intro j hj
    exact hTmono j (hFmono j hj)

/-- Folding `processPoint` over any indexed point list keeps the
invariant, appends the points' keys in order, and only grows the keys. -/
theorem foldl_processPoint_spec {nodes0 : List Node}
    (l : List (Nat × LinkPoint)) {st : GPState} (h : GPInv nodes0 st) :
    GPInv nodes0
      (l.foldl (fun st2 ip => processPoint st2 ip.1 ip.2) st) ∧
    (l.foldl (fun st2 ip => processPoint st2 ip.1 ip.2)
        st).donePoints.map pointKeys =
      st.donePoints.map pointKeys ++ l.map (fun ip => pointKeys ip.2) ∧
    (∀ j ∈ nodeIds st.nodes, j ∈ nodeIds
      (l.foldl (fun st2 ip => processPoint st2 ip.1 ip.2) st).nodes) := by
  induction l generalizing st with
  | nil =>
    exact ⟨h, by simp, fun j hj => hj⟩
  | cons ip rest ih =>
    obtain ⟨h1, hkeys1, hmono1⟩ := processPoint_spec ip.1 ip.2 h
    obtain ⟨h2, hkeys2, hmono2⟩ := ih h1
    refine ⟨h2, ?_, fun j hj => hmono2 j (hmono1 j hj)⟩
    rw [List.foldl_cons, hkeys2, hkeys1, List.map_cons, List.append_assoc]
    rfl

/-- Folding `ensureNode` over the explicit node declarations keeps the
invariant, leaves the processed points untouched, only grows the keys,
and ends with a node for every declared key. -/
theorem foldl_ensureNode_spec {nodes0 : List Node} (l : List String)
    {st : GPState} (h : GPInv nodes0 st) :
    GPInv nodes0 (l.foldl ensureNode st) ∧
    (l.foldl ensureNode st).donePoints = st.donePoints ∧
    (∀ j ∈ nodeIds st.nodes, j ∈ nodeIds (l.foldl ensureNode st).nodes) ∧
    (∀ k ∈ l, k ∈ nodeIds (l.foldl ensureNode st).nodes) := by
  induction l generalizing st with
  | nil =>
    exact ⟨h, rfl, fun j hj => hj, by simp⟩
  | cons k rest ih =>
    obtain ⟨h1, hk1, hmono1, hdone1⟩ := ensureNode_inv k h
    obtain ⟨h2, hdone2, hmono2, hall2⟩ := ih h1
    rw [List.foldl_cons]
    refine ⟨h2, hdone2.trans hdone1, fun j hj => hmono2 j (hmono1 j hj), ?_⟩
    intro k2 hk2
    rcases List.mem_cons.mp hk2 with rfl | hk2
    · exact hmono2 k2 hk1
    · exact hall2 k2 hk2

/-- The state entering the point loop satisfies the invariant whenever
the surviving node list has unique keys. -/
theorem GPInv_init {nodes0 : List Node} (h : (nodeIds nodes0).Nodup) :
    GPInv nodes0
      { nodes := resetLinks nodes0, lookupKeys := [], donePoints := [] } := by
  have hids : nodeIds (resetLinks nodes0) = nodeIds nodes0 := by
    rw [nodeIds, resetLinks, List.map_map, nodeIds]
    apply List.map_congr_left
    intro n hn
    rfl
  refine ⟨?_, ?_, by simp, by simp⟩
  · show (nodeIds (resetLinks nodes0)).Nodup
    rw [hids]
    exact h
  · intro n hn
    exact ⟨{ n with linksFrom := [], linksTo := [] },
      List.mem_map_of_mem _ hn, rfl, rfl, rfl⟩

/-- Master specification of `generatePoints`: the invariant holds at the
end, processed points carry exactly the input keys in order, and every
explicitly declared node key has a node. -/
theorem generatePoints_spec (nodes0 : List Node) (pts : List LinkPoint)
    (optionNodeIds : List String) (h : (nodeIds nodes0).Nodup) :
    GPInv nodes0 (generatePoints nodes0 pts optionNodeIds) ∧
    (generatePoints nodes0 pts optionNodeIds).donePoints.map pointKeys =
      pts.map pointKeys ∧
    (∀ k ∈ optionNodeIds,
      k ∈ nodeIds (generatePoints nodes0 pts optionNodeIds).nodes) := by
  obtain ⟨h1, hkeys1, hmono1⟩ :=
    foldl_processPoint_spec pts.enum (GPInv_init h)
  obtain ⟨h2, hdone2, hmono2, hall2⟩ :=
    foldl_ensureNode_spec optionNodeIds h1
  refine ⟨h2, ?_, hall2⟩
  show (optionNodeIds.foldl ensureNode
    ((pts.enum).foldl (fun st2 ip => processPoint st2 ip.1 ip.2)
      { nodes := resetLinks nodes0, lookupKeys := [],
        donePoints := [] })).donePoints.map pointKeys = pts.map pointKeys
  rw [hdone2, hkeys1]
  show List.map pointKeys [] ++
    (pts.enum).map (fun ip => pointKeys ip.2) = pts.map pointKeys
  rw [List.map_nil, List.nil_append,
    show (fun ip : Nat × LinkPoint => pointKeys ip.2) =
      pointKeys ∘ Prod.snd from rfl,
    ← List.map_map, List.enum_map_snd]

/-- With unique keys, a present key is carried by exactly one node. -/
theorem nodeCount_eq_one {nodes : List Node} {k : String}
    (hnd : (nodeIds nodes).Nodup) (hm : k ∈ nodeIds nodes) :
    nodeCount nodes k = 1 := by
  have hcount : nodeCount nodes k = (nodeIds nodes).count k := by
    rw [nodeCount, nodeIds, List.count, List.countP_map,
      ← List.countP_eq_length_filter]
    rfl
  rw [hcount]
  exact List.count_eq_one_of_mem hnd hm

/-- C3: `generatePoints` creates exactly one node per key.  Starting from
any surviving node list with unique keys, after `generatePoints` the node
keys are still unique; every key occurring in a point's `from`/`to`
fields, and every explicitly declared node id, is carried by exactly one
node (later occurrences reuse the lookup entry instead of creating a
duplicate); and every pre-existing node survives with its key and
position untouched. -/
theorem generatePoints_nodes_unique (nodes0 : List Node)
    (pts : List LinkPoint) (optionNodeIds : List String)
    (h : (nodeIds nodes0).Nodup) :
    (nodeIds (generatePoints nodes0 pts optionNodeIds).nodes).Nodup ∧
    (∀ p ∈ pts, ∀ k, p.fromKey = some k ∨ p.toKey = some k →
      nodeCount (generatePoints nodes0 pts optionNodeIds).nodes k = 1) ∧
    (∀ k ∈ optionNodeIds,
      nodeCount (generatePoints nodes0 pts optionNodeIds).nodes k = 1) ∧
    preservesNodes nodes0 (generatePoints nodes0 pts optionNodeIds).nodes := by
  obtain ⟨⟨hnd, hpres, hlk, hdone⟩, hkeys, hopt⟩ :=
    generatePoints_spec nodes0 pts optionNodeIds h
  refine ⟨hnd, ?_, fun k hk => nodeCount_eq_one hnd (hopt k hk), hpres⟩
  intro p hp k hk
  have hmem : pointKeys p ∈
      (generatePoints nodes0 pts optionNodeIds).donePoints.map pointKeys := by
    rw [hkeys]
    exact List.mem_map_of_mem pointKeys hp
  obtain ⟨q, hq, hqk⟩ := List.mem_map.mp hmem
  have hres := hdone q hq
  have hfk : q.fromKey = p.fromKey := congrArg Prod.fst hqk
  have htk : q.toKey = p.toKey := congrArg Prod.snd hqk
  apply nodeCount_eq_one hnd
  rcases hk with hk | hk
  · exact (hres.1 k (hfk.trans hk)).2
  · exact (hres.2 k (htk.trans hk)).2

/-- Link data for the C3 witness: the same `A → B` link twice. -/
def gpPts : List LinkPoint :=
  [⟨some "A", some "B", none, none⟩, ⟨some "A", some "B", none, none⟩]

/-- Explicit node declarations for the C3 witness: a reused key and a
fresh one. -/
def gpOpts : List String := ["A", "C"]

/-- Witness for C3 on an empty initial node list, duplicate link data and
a reused explicit declaration. -/
theorem generatePoints_nodes_unique_witness :
    (nodeIds ([] : List Node)).Nodup ∧
    ((nodeIds (generatePoints [] gpPts gpOpts).nodes).Nodup ∧
     (∀ p ∈ gpPts, ∀ k, p.fromKey = some k ∨ p.toKey = some k →
       nodeCount (generatePoints [] gpPts gpOpts).nodes k = 1) ∧
     (∀ k ∈ gpOpts,
       nodeCount (generatePoints [] gpPts gpOpts).nodes k = 1) ∧
     preservesNodes [] (generatePoints [] gpPts gpOpts).nodes) :=
  ⟨by simp [nodeIds],
    generatePoints_nodes_unique [] gpPts gpOpts (by simp [nodeIds])⟩

/-- C4: `generatePoints` never leaves a dangling endpoint.  The processed
points carry exactly the input keys, and for every processed point, a
defined `from` key means `fromNode` references a node that exists in the
node list, and likewise for `to` — a missing endpoint node is created on
demand (the model is total, so no error can be raised). -/
theorem generatePoints_resolves_links (nodes0 : List Node)
    (pts : List LinkPoint) (optionNodeIds : List String)
    (h : (nodeIds nodes0).Nodup) :
    (generatePoints nodes0 pts optionNodeIds).donePoints.map pointKeys =
      pts.map pointKeys ∧
    (∀ p ∈ (generatePoints nodes0 pts optionNodeIds).donePoints,
      (∀ k, p.fromKey = some k → p.fromNode = some k ∧
        ∃ n ∈ (generatePoints nodes0 pts optionNodeIds).nodes, n.id = k) ∧
      (∀ k, p.toKey = some k → p.toNode = some k ∧
        ∃ n ∈ (generatePoints nodes0 pts optionNodeIds).nodes, n.id = k)) := by
  obtain ⟨⟨hnd, hpres, hlk, hdone⟩, hkeys, hopt⟩ :=
    generatePoints_spec nodes0 pts optionNodeIds h
  refine ⟨hkeys, ?_⟩
  intro p hp
  obtain ⟨hf, ht⟩ := hdone p hp
  constructor
  · intro k hk
    obtain ⟨h1, h2⟩ := hf k hk
    exact ⟨h1, mem_nodeIds.mp h2⟩
  · intro k hk
    obtain ⟨h1, h2⟩ := ht k hk
    exact ⟨h1, mem_nodeIds.mp h2⟩

/-- Link data for the C4 witness: one link whose two endpoint keys name
nodes that do not exist yet. -/
def gpPts2 : List LinkPoint := [⟨some "X", some "Y", none, none⟩]

/-- Witness for C4: a link to unknown endpoints gets both nodes created
on demand and both references resolved. -/
theorem generatePoints_resolves_links_witness :
    (nodeIds ([] : List Node)).Nodup ∧
    ((generatePoints [] gpPts2 []).donePoints.map pointKeys =
       gpPts2.map pointKeys ∧
     (∀ p ∈ (generatePoints [] gpPts2 []).donePoints,
       (∀ k, p.fromKey = some k → p.fromNode = some k ∧
         ∃ n ∈ (generatePoints [] gpPts2 []).nodes, n.id = k) ∧
       (∀ k, p.toKey = some k → p.toNode = some k ∧
         ∃ n ∈ (generatePoints [] gpPts2 []).nodes, n.id = k))) :=
  ⟨by simp [nodeIds],
    generatePoints_resolves_links [] gpPts2 [] (by simp [nodeIds])⟩

end Networkgraph
